import Mathlib

/-!
Verification of the DSFF dictionary web application (repository `pereorga/dsff`).

The development shallowly embeds the Go source of the search/normalization
engine (`go/helpers.go`, `go/handlers.go`, with the `getEntries` ranking taken
from the revision in `src/unnamed/part_001`, the one consistent with
`go/main.go` and the current Dockerfile) and proves or refutes the frozen
claims about it.

Modelling conventions:
* Go strings are modelled as Lean `String` / `List Char`; all the embedded
  functions operate rune-wise, which matches Go `range` iteration.
* `golang.org/x/text/collate` with `language.Catalan` is modelled by
  `collCompareString`, a primary-strength comparison through per-character
  weights following the CLDR root order (spaces before punctuation before
  digits before letters).  On the strings this development compares
  (lowercase unaccented titles, labels such as "1.", "2.", and the empty
  string) this agrees with the library collator.
* Go `unicode` case mappings are modelled on ASCII plus Latin-1, the range
  the corpus and the claims exercise.
* `slices.SortFunc` (an unstable comparison sort) is modelled by
  `List.insertionSort` over the embedded comparator; every statement that
  depends on the order of comparator-equal elements is made at the
  comparator level instead.
* A Go panic is modelled by `Option.none`.
-/

namespace DSFF

/-- Model of Go `unicode.IsSpace` (the characters `strings.Fields` splits on). -/
def isGoSpace (c : Char) : Bool :=
  c = ' ' || c = Char.ofNat 9 || c = Char.ofNat 10 || c = Char.ofNat 11 ||
  c = Char.ofNat 12 || c = Char.ofNat 13 || c = Char.ofNat 133 || c = Char.ofNat 160

/-- Apply a finite character-replacement table, leaving unlisted characters
unchanged.  Models a Go `strings.Replacer` whose patterns are single runes. -/
def applyTable (t : List (Char × Char)) (c : Char) : Char :=
  ((t.find? (fun q => q.1 = c)).map (fun q => q.2)).getD c

/-- Case-mapping table of Go `strings.ToLower`, restricted to ASCII and the
Latin-1 letters that occur in the corpus. -/
def lowerTable : List (Char × Char) :=
  [(Char.ofNat 65, Char.ofNat 97), (Char.ofNat 66, Char.ofNat 98),
   (Char.ofNat 67, Char.ofNat 99), (Char.ofNat 68, Char.ofNat 100),
   (Char.ofNat 69, Char.ofNat 101), (Char.ofNat 70, Char.ofNat 102),
   (Char.ofNat 71, Char.ofNat 103), (Char.ofNat 72, Char.ofNat 104),
   (Char.ofNat 73, Char.ofNat 105), (Char.ofNat 74, Char.ofNat 106),
   (Char.ofNat 75, Char.ofNat 107), (Char.ofNat 76, Char.ofNat 108),
   (Char.ofNat 77, Char.ofNat 109), (Char.ofNat 78, Char.ofNat 110),
   (Char.ofNat 79, Char.ofNat 111), (Char.ofNat 80, Char.ofNat 112),
   (Char.ofNat 81, Char.ofNat 113), (Char.ofNat 82, Char.ofNat 114),
   (Char.ofNat 83, Char.ofNat 115), (Char.ofNat 84, Char.ofNat 116),
   (Char.ofNat 85, Char.ofNat 117), (Char.ofNat 86, Char.ofNat 118),
   (Char.ofNat 87, Char.ofNat 119), (Char.ofNat 88, Char.ofNat 120),
   (Char.ofNat 89, Char.ofNat 121), (Char.ofNat 90, Char.ofNat 122),
   (Char.ofNat 192, Char.ofNat 224), (Char.ofNat 199, Char.ofNat 231),
   (Char.ofNat 200, Char.ofNat 232), (Char.ofNat 201, Char.ofNat 233),
   (Char.ofNat 205, Char.ofNat 237), (Char.ofNat 207, Char.ofNat 239),
   (Char.ofNat 210, Char.ofNat 242), (Char.ofNat 211, Char.ofNat 243),
   (Char.ofNat 218, Char.ofNat 250), (Char.ofNat 220, Char.ofNat 252)]

/-- Model of Go `strings.ToLower`, per rune. -/
def goToLower (c : Char) : Char :=
  applyTable lowerTable c

/-- The accent-removal table of `toLowercaseNoAccents` in `go/helpers.go`
(the nine lowercase accented Catalan vowels). -/
def accentTable : List (Char × Char) :=
  [(Char.ofNat 224, Char.ofNat 97), (Char.ofNat 232, Char.ofNat 101),
   (Char.ofNat 233, Char.ofNat 101), (Char.ofNat 237, Char.ofNat 105),
   (Char.ofNat 239, Char.ofNat 105), (Char.ofNat 242, Char.ofNat 111),
   (Char.ofNat 243, Char.ofNat 111), (Char.ofNat 250, Char.ofNat 117),
   (Char.ofNat 252, Char.ofNat 117)]

/-- Per-character action of `toLowercaseNoAccents`: lowercase, then strip the
fixed set of Catalan accents. -/
def lowerNoAcc (c : Char) : Char :=
  applyTable accentTable (goToLower c)

/-- `toLowercaseNoAccents` from `go/helpers.go`: lowercases the string and
removes the fixed set of Catalan accents. -/
def toLowercaseNoAccents (s : String) : String :=
  String.mk (s.data.map lowerNoAcc)

/-- The ASCII apostrophe character. -/
def aposChar : Char := Char.ofNat 39

/-- The typographic apostrophe replaced by `normalizeForSearch`. -/
def typoAposChar : Char := Char.ofNat 8217

/-- The horizontal-ellipsis character produced by `normalizeForSearch`. -/
def ellipsisChar : Char := Char.ofNat 8230

/-- The single scan of the `strings.Replacer` in `normalizeForSearch`
(`go/helpers.go`): typographic apostrophe to ASCII apostrophe, `...` to the
ellipsis character, parenthesis characters deleted.  Replacements are
non-overlapping and the scan never revisits produced output, exactly like
`strings.Replacer.Replace`.  Structural fuel: every step consumes at least
one input character, so fuel equal to the input length completes the scan;
exhausted fuel (unreachable from `goReplace`) yields the empty list. -/
def goReplaceF : Nat → List Char → List Char
  | 0, _ => []
  | _ + 1, [] => []
  | n + 1, c :: r =>
    if c = typoAposChar then aposChar :: goReplaceF n r
    else if c = '(' then goReplaceF n r
    else if c = ')' then goReplaceF n r
    else if c = '.' ∧ r.take 2 = ['.', '.'] then ellipsisChar :: goReplaceF n (r.drop 2)
    else c :: goReplaceF n r

/-- The replacer scan of `normalizeForSearch`, fuel instantiated. -/
def goReplace (l : List Char) : List Char :=
  goReplaceF l.length l

/-- Whether a character list contains three consecutive dots (the replacer
pattern `"..."`).  Used to state the amended idempotence of
`normalizeForSearch`. -/
def hasTripleDot : List Char → Bool
  | c1 :: c2 :: c3 :: r =>
    (c1 = '.' && c2 = '.' && c3 = '.') || hasTripleDot (c2 :: c3 :: r)
  | _ => false

/-- Model of Go `strings.Fields`: the maximal runs of non-whitespace
characters — split at every whitespace character, then drop the empty
pieces. -/
def goFields (l : List Char) : List (List Char) :=
  (l.splitOnP isGoSpace).filter (fun w => !w.isEmpty)

/-- Proof vocabulary: a word list as produced by `goFields` — every word is
non-empty and free of whitespace characters. -/
def cleanWords (ws : List (List Char)) : Prop :=
  ∀ w ∈ ws, w ≠ [] ∧ ∀ c ∈ w, isGoSpace c = false

/-- Join a list of words with the given separator character
(Go `strings.Join` with a one-character separator). -/
def joinSep (sep : Char) : List (List Char) → List Char
  | [] => []
  | [w] => w
  | w :: ws => w ++ sep :: joinSep sep ws

/-- The cutset of `strings.Trim(query, "-, ")` in `normalizeForSearch`. -/
def inCut (c : Char) : Bool :=
  c = '-' || c = ',' || c = ' '

/-- Go `strings.Trim` with the `"-, "` cutset: drop cutset characters from
both ends. -/
def trimCut (l : List Char) : List Char :=
  ((l.dropWhile inCut).reverse.dropWhile inCut).reverse

/-- `normalizeForSearch` from `go/helpers.go`, on character lists:
replacer scan, whitespace collapsing via `Fields`/`Join`, trimming the
`"-, "` cutset, then lowercasing and accent removal. -/
def normalizeListForSearch (l : List Char) : List Char :=
  ((trimCut (joinSep ' ' (goFields (goReplace l)))).map lowerNoAcc)

/-- `normalizeForSearch` from `go/helpers.go`. -/
def normalizeForSearch (s : String) : String :=
  String.mk (normalizeListForSearch s.data)

/-- One `ReplaceAllString` pass for an innermost-span pattern such as
`\([^()]*\)`, with structural fuel: every non-overlapping leftmost innermost
`op ... cl` span is removed.  Each recursive step consumes at least one input
character, so fuel equal to the input length always completes the scan. -/
def bracketPassF (op cl : Char) : Nat → List Char → List Char
  | 0, l => l
  | _ + 1, [] => []
  | n + 1, c :: r =>
    if c = op then
      match r.dropWhile (fun d => !(d = op || d = cl)) with
      | d :: t =>
        if d = cl then bracketPassF op cl n t
        else c :: (r.takeWhile (fun d => !(d = op || d = cl)) ++ bracketPassF op cl n (d :: t))
      | [] => c :: r
    else c :: bracketPassF op cl n r

/-- One `ReplaceAllString` pass, fuel instantiated. -/
def bracketPass (op cl : Char) (l : List Char) : List Char :=
  bracketPassF op cl l.length l

/-- The `for regex.MatchString { ReplaceAllString }` loop of
`removeParenthesesContent`, with explicit fuel.  Each productive pass removes
at least two characters, so fuel equal to the input length always reaches the
fixpoint. -/
def removeLoop (f : List Char → List Char) : Nat → List Char → List Char
  | 0, l => l
  | Nat.succ n, l => if f l = l then l else removeLoop f n (f l)

/-- The `strings.ReplaceAll(content, " , ", ", ")` scan in
`removeParenthesesContent`. -/
def commaFix : List Char → List Char
  | ' ' :: ',' :: ' ' :: r => ',' :: ' ' :: commaFix r
  | c :: r => c :: commaFix r
  | [] => []

/-- Go `strings.TrimSpace`. -/
def trimWS (l : List Char) : List Char :=
  ((l.dropWhile isGoSpace).reverse.dropWhile isGoSpace).reverse

/-- `removeParenthesesContent` from `go/helpers.go`: repeatedly remove
innermost `(...)` spans, then innermost `[...]` spans, collapse whitespace,
replace " , " by ", ", and trim. -/
def removeParenthesesContent (s : String) : String :=
  let c1 := removeLoop (bracketPass '(' ')') s.data.length s.data
  let c2 := removeLoop (bracketPass '[' ']') c1.length c1
  String.mk (trimWS (commaFix (joinSep ' ' (goFields c2))))

/-- The bracket-stripping normalizer exactly as the specification words it
(repeated innermost-span removal, whitespace collapsing, trimming — without
the " , " to ", " replacement the source also performs).  Used to compare the
specified pipeline with the implemented one. -/
def stripBracketedContentPerSpec (s : String) : String :=
  let c1 := removeLoop (bracketPass '(' ')') s.data.length s.data
  let c2 := removeLoop (bracketPass '[' ']') c1.length c1
  String.mk (trimWS (joinSep ' ' (goFields c2)))

/-- Primary-strength character weight modelling the
`collate.New(language.Catalan)` ordering on the characters this development
compares: spaces sort before punctuation, punctuation before digits, digits
before letters.  The weight is injective. -/
def charWeight (c : Char) : Nat :=
  if c.toNat = 32 then 1
  else if c.toNat = 39 then 2
  else if c.toNat = 45 then 3
  else if c.toNat = 44 then 4
  else if c.toNat = 46 then 5
  else if c.toNat = 8230 then 6
  else if 48 ≤ c.toNat ∧ c.toNat ≤ 57 then 100 + c.toNat
  else if 97 ≤ c.toNat ∧ c.toNat ≤ 122 then 200 + c.toNat
  else 1000 + c.toNat

/-- Lexicographic comparison of weight lists, as a Go-style three-way
comparator. -/
def lexCmp : List Nat → List Nat → Int
  | [], [] => 0
  | [], _ :: _ => -1
  | _ :: _, [] => 1
  | x :: xs, y :: ys => if x < y then -1 else if y < x then 1 else lexCmp xs ys

/-- Model of `collator.CompareString` on character lists. -/
def collCompareList (a b : List Char) : Int :=
  lexCmp (a.map charWeight) (b.map charWeight)

/-- Model of `collator.CompareString` (Catalan collation). -/
def collCompareString (a b : String) : Int :=
  collCompareList a.data b.data

/-- A dictionary entry (`go/types.go`), restricted to the fields the embedded
engine reads.  The remaining fields are free-text presentation data never
inspected by search, concept grouping, or the loader. -/
structure Entry where
  Title : String
  TitleNormalizedWp : String
  TitleNormalizedWpc : String
  Concepte : String
  AntonimConcepte : Bool
  AccepcioConcepte : String
deriving DecidableEq, Repr

/-- Search-mode constant from `go/main.go`. -/
def SearchModeConte : String := "Conté"

/-- Search-mode constant from `go/main.go`. -/
def SearchModeComencaPer : String := "Comença per"

/-- Search-mode constant from `go/main.go`. -/
def SearchModeAcabaEn : String := "Acaba en"

/-- Search-mode constant from `go/main.go`. -/
def SearchModeCoincident : String := "Coincident"

/-- Model of the regexp class `\p{L}` (Unicode letters), restricted to ASCII
and Latin-1/Latin-Extended, the ranges the corpus uses. -/
def goIsLetter (c : Char) : Bool :=
  (65 ≤ c.toNat && c.toNat ≤ 90) || (97 ≤ c.toNat && c.toNat ≤ 122) ||
  (192 ≤ c.toNat && c.toNat ≤ 214) || (216 ≤ c.toNat && c.toNat ≤ 246) ||
  (248 ≤ c.toNat && c.toNat ≤ 591)

/-- Model of the regexp class `\p{M}` (combining marks), restricted to the
combining diacritical marks block. -/
def goIsMark (c : Char) : Bool :=
  768 ≤ c.toNat && c.toNat ≤ 879

/-- A character matched by `[\p{L}\p{M}]` in the Contains-mode regular
expression. -/
def isWordChar (c : Char) : Bool :=
  goIsLetter c || goIsMark c

/-- Whether the literal query `q` occurs in `s` at position `i` with the
boundary conditions of the regular expression
`(^|[^\p{L}\p{M}])q([^\p{L}\p{M}]|$)` built in `getEntries`. -/
def matchAtPos (q s : List Char) (i : Nat) : Bool :=
  ((s.drop i).take q.length == q) &&
  (i == 0 || !isWordChar (s.getD (i - 1) ' ')) &&
  (i + q.length == s.length || !isWordChar (s.getD (i + q.length) ' '))

/-- Existence semantics of `regex.MatchString` for the Contains-mode pattern:
some position of `s` carries a boundary-delimited occurrence of `q`. -/
def containsWB (q s : List Char) : Bool :=
  (List.range (s.length + 1)).any (matchAtPos q s)

/-- The specification's wording of a whole-word-boundary occurrence: the
query occurs at a position whose start is the beginning of the field or
preceded by a character that is neither a letter nor a combining mark, and
whose end is the end of the field or followed by such a character.  Used to
state C3 and compared against the regex model `containsWB`. -/
def occursWordBoundary (q s : List Char) : Prop :=
  ∃ pre post : List Char, s = pre ++ q ++ post ∧
    (pre = [] ∨ ∃ c, pre.getLast? = some c ∧ isWordChar c = false) ∧
    (post = [] ∨ ∃ c, post.head? = some c ∧ isWordChar c = false)

/-- The per-entry filter of `getEntries`: the `switch searchMode` in
`go/helpers.go` (identical in `src/unnamed/part_001`). -/
def entryMatches (normalizedQuery searchMode : String) (e : Entry) : Bool :=
  if searchMode = SearchModeComencaPer then
    normalizedQuery.data.isPrefixOf e.TitleNormalizedWpc.data ||
      normalizedQuery.data.isPrefixOf e.TitleNormalizedWp.data
  else if searchMode = SearchModeAcabaEn then
    normalizedQuery.data.isSuffixOf e.TitleNormalizedWpc.data ||
      normalizedQuery.data.isSuffixOf e.TitleNormalizedWp.data
  else if searchMode = SearchModeCoincident then
    e.TitleNormalizedWpc == normalizedQuery || e.TitleNormalizedWp == normalizedQuery
  else
    containsWB normalizedQuery.data e.TitleNormalizedWpc.data ||
      (e.TitleNormalizedWpc != e.TitleNormalizedWp &&
        containsWB normalizedQuery.data e.TitleNormalizedWp.data)

/-- Whether an entry is an exact match for the query (either normalized
field equals it), as computed inside the `getEntries` sort closure. -/
def isExact (normalizedQuery : String) (e : Entry) : Bool :=
  e.TitleNormalizedWpc == normalizedQuery || e.TitleNormalizedWp == normalizedQuery

/-- The common alphabetical tail of the `getEntries` comparator
(`src/unnamed/part_001`): collated comparison of the
without-parentheses-content titles, with a collated comparison of the
with-parentheses titles when the former are equal. -/
def alphaCmp (a b : Entry) : Int :=
  if a.TitleNormalizedWpc = b.TitleNormalizedWpc then
    collCompareString a.TitleNormalizedWp b.TitleNormalizedWp
  else
    collCompareString a.TitleNormalizedWpc b.TitleNormalizedWpc

/-- The full `getEntries` sort comparator: exact matches are promoted first,
but only when the mode is the empty string or the literal Contains mode. -/
def searchCmp (normalizedQuery searchMode : String) (a b : Entry) : Int :=
  if (searchMode = "" || searchMode = SearchModeConte) &&
      isExact normalizedQuery a && !isExact normalizedQuery b then -1
  else if (searchMode = "" || searchMode = SearchModeConte) &&
      !isExact normalizedQuery a && isExact normalizedQuery b then 1
  else alphaCmp a b

/-- The `slices.SortFunc` call in `getEntries`, modelled as a sort by the
embedded comparator. -/
def sortResults (normalizedQuery searchMode : String) (l : List Entry) : List Entry :=
  List.insertionSort (fun a b => searchCmp normalizedQuery searchMode a b ≤ 0) l

/-- `getEntries` from the helpers file: filter the corpus by mode, sort with
the comparator, and paginate.  The corpus (the global `AllEntries`) is passed
explicitly. -/
def getEntries (corpus : List Entry) (normalizedQuery searchMode : String)
    (page pageSize : Nat) : List Entry × Nat :=
  let results := corpus.filter (entryMatches normalizedQuery searchMode)
  let sorted := sortResults normalizedQuery searchMode results
  let resultsCount := results.length
  if resultsCount = 0 then ([], resultsCount)
  else
    let start := (page - 1) * pageSize
    if resultsCount ≤ start then ([], resultsCount)
    else ((sorted.drop start).take (min (start + pageSize) resultsCount - start), resultsCount)

/-- The three-key comparator of `conceptHandler` (`go/handlers.go`, identical
in every revision): collated sense label, then the antonym flag, then the
collated without-parentheses-content title. -/
def conceptCmp (a b : Entry) : Int :=
  let comparison := collCompareString a.AccepcioConcepte b.AccepcioConcepte
  if comparison ≠ 0 then comparison
  else if a.AntonimConcepte ≠ b.AntonimConcepte then
    (if a.AntonimConcepte then 1 else -1)
  else collCompareString a.TitleNormalizedWpc b.TitleNormalizedWpc

/-- The `slices.SortFunc` call of `conceptHandler`. -/
def sortConceptEntries (l : List Entry) : List Entry :=
  List.insertionSort (fun a b => conceptCmp a b ≤ 0) l

/-- `getConceptSlug` from `go/helpers.go`: lowercase, then replace the spaces
between fields by underscores. -/
def getConceptSlug (concept : String) : String :=
  String.mk (joinSep '_' (goFields (concept.data.map goToLower)))

/-- The character replacement of `strings.ReplaceAll(conceptSlug, "_", " ")`. -/
def underscoreToSpace (c : Char) : Char :=
  if c = '_' then ' ' else c

/-- Model of Go `strings.EqualFold`, by simple case folding
(adequate on ASCII and Latin-1). -/
def eqFold (a b : String) : Bool :=
  a.data.map goToLower == b.data.map goToLower

/-- `getEntriesByConceptSlug` from `go/helpers.go`: map the slug back to a
concept name and filter the corpus case-insensitively. -/
def getEntriesByConceptSlug (corpus : List Entry) (conceptSlug : String) : List Entry :=
  corpus.filter (fun e =>
    eqFold e.Concepte (String.mk (conceptSlug.data.map underscoreToSpace)))

/-- The data structures `loadDataFromFile` populates: the phrase-existence
set and the concepts-by-first-letter index (association list keyed by the
uppercase unaccented first letter). -/
structure LoadState where
  phrases : List String
  conceptsByFirstLetter : List (String × List String)
deriving DecidableEq, Repr

/-- Model of Go `strings.ToUpper` restricted to the characters reaching it in
the loader (lowercase letters produced by `toLowercaseNoAccents`). -/
def goToUpper (c : Char) : Char :=
  applyTable (lowerTable.map (fun p => (p.2, p.1))) c

/-- Set-style insertion (a Go map assignment collapses duplicates). -/
def addUnique (xs : List String) (x : String) : List String :=
  if x ∈ xs then xs else xs ++ [x]

/-- Lookup in the concepts-by-letter association list. -/
def assocGet (m : List (String × List String)) (k : String) : List String :=
  ((m.find? (fun p => p.1 = k)).map (fun p => p.2)).getD []

/-- Update in the concepts-by-letter association list. -/
def assocSet (m : List (String × List String)) (k : String) (v : List String) :
    List (String × List String) :=
  if (m.find? (fun p => p.1 = k)).isSome then
    m.map (fun p => if p.1 = k then (k, v) else p)
  else m ++ [(k, v)]

/-- One iteration of the population loop in `loadDataFromFile`: insert the
phrase-existence key and group the concept under its first letter.  Reading
`[]rune(entry.Concepte)[0]` of an empty concept name panics in Go; the panic
is modelled by `none`. -/
def loadStep (st : LoadState) (e : Entry) : Option LoadState :=
  match e.Concepte.data with
  | [] => none
  | c :: _ =>
    let key := String.mk [goToUpper (lowerNoAcc c)]
    let lst := assocGet st.conceptsByFirstLetter key
    some { phrases := addUnique st.phrases (removeParenthesesContent e.Title)
           conceptsByFirstLetter :=
             if e.Concepte ∈ lst then st.conceptsByFirstLetter
             else assocSet st.conceptsByFirstLetter key (lst ++ [e.Concepte]) }

/-- The post-decode phase of `loadDataFromFile`: populate both indexes, then
sort each letter's concept list with the Catalan collator.  After a
successful JSON decode the Go function has no error return left — the only
abnormal outcome is the panic, modelled by `none`. -/
def buildIndexes (entries : List Entry) : Option LoadState :=
  match entries.foldlM loadStep { phrases := [], conceptsByFirstLetter := [] } with
  | none => none
  | some st =>
    some { st with
           conceptsByFirstLetter := st.conceptsByFirstLetter.map
             (fun p => (p.1, List.insertionSort (fun a b => collCompareString a b ≤ 0) p.2)) }

/-! ### Helper lemmas -/

theorem lexCmp_neg : ∀ x y : List Nat, lexCmp x y = -lexCmp y x
  | [], [] => by simp [lexCmp]
  | [], _ :: _ => by simp [lexCmp]
  | _ :: _, [] => by simp [lexCmp]
  | x :: xs, y :: ys => by
    simp only [lexCmp]
    rcases Nat.lt_trichotomy x y with h | h | h
    · simp [h, Nat.lt_asymm h]
    · subst h
      simp [Nat.lt_irrefl, lexCmp_neg xs ys]
    · simp [h, Nat.lt_asymm h]

theorem lexCmp_eq_zero_iff : ∀ x y : List Nat, lexCmp x y = 0 ↔ x = y
  | [], [] => by simp [lexCmp]
  | [], _ :: _ => by simp [lexCmp]
  | _ :: _, [] => by simp [lexCmp]
  | x :: xs, y :: ys => by
    simp only [lexCmp]
    rcases Nat.lt_trichotomy x y with h | h | h
    · rw [if_pos h]
      exact iff_of_false (by omega) (by intro he; injection he with h1 h2; omega)
    · subst h
      rw [if_neg (Nat.lt_irrefl x), if_neg (Nat.lt_irrefl x)]
      simp [lexCmp_eq_zero_iff xs ys]
    · rw [if_neg (Nat.lt_asymm h), if_pos h]
      exact iff_of_false (by omega) (by intro he; injection he with h1 h2; omega)

theorem lexCmp_trans_le : ∀ x y z : List Nat,
    lexCmp x y ≤ 0 → lexCmp y z ≤ 0 → lexCmp x z ≤ 0
  | [], _, [] => by simp [lexCmp]
  | [], _, _ :: _ => by simp [lexCmp]
  | x :: xs, y, [] => by
    intro h1 h2
    cases y with
    | nil => exact absurd h1 (by simp [lexCmp])
    | cons b bs => exact absurd h2 (by simp [lexCmp])
  | x :: xs, y, z :: zs => by
    intro h1 h2
    cases y with
    | nil => exact absurd h1 (by simp [lexCmp])
    | cons b bs =>
      simp only [lexCmp] at h1 h2 ⊢
      by_cases hxb : x < b
      · have hbz : ¬ z < b := by
          intro hzb
          rw [if_neg (by omega), if_pos hzb] at h2
          omega
        have : x < z ∨ (x < b ∧ b ≤ z) := by omega
        rw [if_pos (by omega)]
        omega
      · by_cases hbx : b < x
        · rw [if_neg hxb, if_pos hbx] at h1
          omega
        · have hxb2 : x = b := by omega
          subst hxb2
          rw [if_neg (Nat.lt_irrefl x), if_neg (Nat.lt_irrefl x)] at h1
          by_cases hxz : x < z
          · rw [if_pos hxz]
            omega
          · by_cases hzx : z < x
            · rw [if_neg (by omega), if_pos hzx] at h2
              omega
            · rw [if_neg hxz, if_neg hzx] at h2 ⊢
              exact lexCmp_trans_le xs bs zs h1 h2

set_option maxHeartbeats 2000000 in
theorem charWeight_inj {c d : Char} (h : charWeight c = charWeight d) : c = d := by
  have hcd : c.toNat = d.toNat := by
    unfold charWeight at h
    split_ifs at h <;> omega
  have hval : c.val = d.val := by
    have h1 : c.val.toNat = d.val.toNat := hcd
    exact UInt32.toNat.inj h1
  exact Char.ext hval

theorem collCompareList_neg (a b : List Char) :
    collCompareList a b = -collCompareList b a :=
  lexCmp_neg _ _

theorem collCompareList_eq_zero_iff (a b : List Char) :
    collCompareList a b = 0 ↔ a = b := by
  unfold collCompareList
  rw [lexCmp_eq_zero_iff]
  constructor
  · intro h
    exact List.map_injective_iff.mpr (fun c d => charWeight_inj) h
  · intro h
    rw [h]

theorem collCompareString_neg (a b : String) :
    collCompareString a b = -collCompareString b a :=
  collCompareList_neg _ _

theorem collCompareString_eq_zero_iff (a b : String) :
    collCompareString a b = 0 ↔ a = b := by
  unfold collCompareString
  rw [collCompareList_eq_zero_iff]
  constructor
  · intro h
    cases a
    cases b
    exact congrArg String.mk h
  · intro h
    rw [h]

theorem collCompareString_trans_le {a b c : String}
    (h1 : collCompareString a b ≤ 0) (h2 : collCompareString b c ≤ 0) :
    collCompareString a c ≤ 0 :=
  lexCmp_trans_le _ _ _ h1 h2

theorem collCompareString_lt_of_ne {a b : String}
    (h1 : collCompareString a b ≤ 0) (h2 : a ≠ b) : collCompareString a b < 0 := by
  rcases lt_trichotomy (collCompareString a b) 0 with h | h | h
  · exact h
  · exact absurd ((collCompareString_eq_zero_iff a b).mp h) h2
  · omega

theorem alphaCmp_neg (a b : Entry) : alphaCmp a b = -alphaCmp b a := by
  unfold alphaCmp
  by_cases h : a.TitleNormalizedWpc = b.TitleNormalizedWpc
  · rw [if_pos h, if_pos h.symm]
    exact collCompareString_neg _ _
  · rw [if_neg h, if_neg (fun he => h he.symm)]
    exact collCompareString_neg _ _

theorem alphaCmp_trans_le {a b c : Entry}
    (h1 : alphaCmp a b ≤ 0) (h2 : alphaCmp b c ≤ 0) : alphaCmp a c ≤ 0 := by
  unfold alphaCmp at *
  by_cases hab : a.TitleNormalizedWpc = b.TitleNormalizedWpc <;>
    by_cases hbc : b.TitleNormalizedWpc = c.TitleNormalizedWpc
  · rw [if_pos hab] at h1
    rw [if_pos hbc] at h2
    rw [if_pos (hab.trans hbc)]
    exact collCompareString_trans_le h1 h2
  · rw [if_neg (fun he => hbc ((hab.symm.trans he)))]
    rw [if_neg hbc] at h2
    rw [hab]
    exact h2
  · rw [if_neg (fun he => hab (he.trans hbc.symm))]
    rw [if_neg hab] at h1
    rw [← hbc]
    exact h1
  · rw [if_neg hab] at h1
    rw [if_neg hbc] at h2
    by_cases hac : a.TitleNormalizedWpc = c.TitleNormalizedWpc
    · exfalso
      rw [← hac] at h2
      have hba := collCompareString_neg b.TitleNormalizedWpc a.TitleNormalizedWpc
      have hz : collCompareString a.TitleNormalizedWpc b.TitleNormalizedWpc = 0 := by omega
      exact hab ((collCompareString_eq_zero_iff _ _).mp hz)
    · rw [if_neg hac]
      exact collCompareString_trans_le h1 h2

theorem searchCmp_promo (q mode : String) (a b : Entry)
    (hm : mode = "" ∨ mode = SearchModeConte) :
    searchCmp q mode a b =
      (if isExact q a && !isExact q b then -1
       else if !isExact q a && isExact q b then 1
       else alphaCmp a b) := by
  unfold searchCmp
  have hP : (mode = "" || mode = SearchModeConte) = true := by
    rcases hm with h | h <;> simp [h]
  rw [hP]
  cases haE : isExact q a <;> cases hbE : isExact q b <;> simp

theorem searchCmp_no_promo (q mode : String) (a b : Entry)
    (hm1 : mode ≠ "") (hm2 : mode ≠ SearchModeConte) :
    searchCmp q mode a b = alphaCmp a b := by
  unfold searchCmp
  have hP : (mode = "" || mode = SearchModeConte) = false := by
    simp [hm1, hm2]
  rw [hP]
  simp

theorem searchCmp_neg (q mode : String) (a b : Entry) :
    searchCmp q mode a b = -searchCmp q mode b a := by
  by_cases hm : mode = "" ∨ mode = SearchModeConte
  · rw [searchCmp_promo q mode a b hm, searchCmp_promo q mode b a hm]
    cases haE : isExact q a <;> cases hbE : isExact q b <;>
      simp [alphaCmp_neg a b]
  · push_neg at hm
    rw [searchCmp_no_promo q mode a b hm.1 hm.2, searchCmp_no_promo q mode b a hm.1 hm.2]
    exact alphaCmp_neg a b

theorem searchCmp_trans_le {q mode : String} {a b c : Entry}
    (h1 : searchCmp q mode a b ≤ 0) (h2 : searchCmp q mode b c ≤ 0) :
    searchCmp q mode a c ≤ 0 := by
  by_cases hm : mode = "" ∨ mode = SearchModeConte
  · rw [searchCmp_promo q mode a b hm] at h1
    rw [searchCmp_promo q mode b c hm] at h2
    rw [searchCmp_promo q mode a c hm]
    cases haE : isExact q a <;> cases hbE : isExact q b <;>
      cases hcE : isExact q c <;>
      simp [haE, hbE, hcE] at h1 h2 ⊢ <;>
      first
        | omega
        | exact alphaCmp_trans_le h1 h2
  · push_neg at hm
    rw [searchCmp_no_promo q mode a b hm.1 hm.2] at h1
    rw [searchCmp_no_promo q mode b c hm.1 hm.2] at h2
    rw [searchCmp_no_promo q mode a c hm.1 hm.2]
    exact alphaCmp_trans_le h1 h2

theorem getEntries_total (corpus : List Entry) (q mode : String) (page pageSize : Nat) :
    (getEntries corpus q mode page pageSize).2 =
      (corpus.filter (entryMatches q mode)).length := by
  unfold getEntries
  dsimp only
  split
  · rfl
  · split <;> rfl

theorem getEntries_fst (corpus : List Entry) (q mode : String) (page pageSize : Nat) :
    (getEntries corpus q mode page pageSize).1 =
      if (corpus.filter (entryMatches q mode)).length ≤ (page - 1) * pageSize then
        ([] : List Entry)
      else
        ((sortResults q mode (corpus.filter (entryMatches q mode))).drop
            ((page - 1) * pageSize)).take
          (min ((page - 1) * pageSize + pageSize)
              (corpus.filter (entryMatches q mode)).length - (page - 1) * pageSize) := by
  unfold getEntries
  dsimp only
  split
  · rename_i h0
    rw [if_pos (by omega)]
  · split <;> rfl

theorem foldlM_loadStep_isSome :
    ∀ (entries : List Entry) (st : LoadState),
      (entries.foldlM loadStep st).isSome = true ↔ ∀ e ∈ entries, e.Concepte ≠ "" := by
  intro entries
  induction entries with
  | nil => intro st; simp
  | cons e t ih =>
    intro st
    rw [List.foldlM_cons]
    constructor
    · intro h
      intro x hx
      rw [List.mem_cons] at hx
      rcases hx with rfl | hx
      · intro hc
        unfold loadStep at h
        rw [hc] at h
        simp at h
      · cases hstep : loadStep st e with
        | none => rw [hstep] at h; simp at h
        | some st2 =>
          rw [hstep] at h
          simp only [Option.bind_eq_bind, Option.some_bind] at h
          exact (ih st2).mp h x hx
    · intro h
      have he : e.Concepte ≠ "" := h e (List.mem_cons_self e t)
      have hdata : e.Concepte.data ≠ [] := by
        intro hd
        exact he (String.ext (by rw [hd]))
      cases hcd : e.Concepte.data with
      | nil => exact absurd hcd hdata
      | cons c rest =>
        have hstep : ∃ st2, loadStep st e = some st2 := by
          unfold loadStep
          rw [hcd]
          exact ⟨_, rfl⟩
        obtain ⟨st2, hst2⟩ := hstep
        rw [hst2]
        simp only [Option.bind_eq_bind, Option.some_bind]
        exact (ih st2).mpr (fun x hx => h x (List.mem_cons_of_mem e hx))

theorem applyTable_pres (t : List (Char × Char)) (P : Char → Bool)
    (h : ∀ p ∈ t, P p.1 = false ∧ P p.2 = false) (c : Char) :
    P (applyTable t c) = P c := by
  unfold applyTable
  cases hf : t.find? (fun q => q.1 = c) with
  | none => rfl
  | some p =>
    have hm := List.mem_of_find?_eq_some hf
    have hp := List.find?_some hf
    simp only [decide_eq_true_eq] at hp
    have hP := h p hm
    show P p.2 = P c
    rw [hP.2, ← hp, hP.1]

theorem goToLower_pres (P : Char → Bool)
    (h : ∀ p ∈ lowerTable, P p.1 = false ∧ P p.2 = false) (c : Char) :
    P (goToLower c) = P c :=
  applyTable_pres lowerTable P h c

theorem applyTable_fix_of_vals (t : List (Char × Char))
    (h : ∀ p ∈ t, applyTable t p.2 = p.2) (c : Char) :
    applyTable t (applyTable t c) = applyTable t c := by
  cases hf : t.find? (fun q => q.1 = c) with
  | none =>
    have h1 : applyTable t c = c := by
      unfold applyTable
      rw [hf]
      rfl
    rw [h1]
    exact h1
  | some p =>
    have hm := List.mem_of_find?_eq_some hf
    have hv : applyTable t c = p.2 := by
      unfold applyTable
      rw [hf]
      rfl
    rw [hv]
    exact h p hm

theorem goToLower_idem (c : Char) : goToLower (goToLower c) = goToLower c :=
  applyTable_fix_of_vals lowerTable (by decide) c

theorem splitOnP_words_free (P : Char → Bool) :
    ∀ l : List Char, ∀ w ∈ l.splitOnP P, ∀ c ∈ w, P c = false := by
  intro l
  induction l with
  | nil =>
    intro w hw c hc
    rw [List.splitOnP_nil] at hw
    rcases List.mem_singleton.mp hw with rfl
    simp at hc
  | cons x xs ih =>
    intro w hw c hc
    rw [List.splitOnP_cons] at hw
    by_cases hx : P x
    · rw [if_pos hx] at hw
      rcases List.mem_cons.mp hw with rfl | hw
      · simp at hc
      · exact ih w hw c hc
    · rw [if_neg hx] at hw
      obtain ⟨hd, tl, heq⟩ := List.exists_cons_of_ne_nil (List.splitOnP_ne_nil P xs)
      rw [heq] at hw
      simp only [List.modifyHead] at hw
      rcases List.mem_cons.mp hw with rfl | hw
      · rcases List.mem_cons.mp hc with rfl | hc
        · exact Bool.eq_false_iff.mpr hx
        · exact ih hd (by rw [heq]; exact List.mem_cons_self hd tl) c hc
      · exact ih w (by rw [heq]; exact List.mem_cons_of_mem hd hw) c hc

theorem splitOnP_words_mem (P : Char → Bool) :
    ∀ l : List Char, ∀ w ∈ l.splitOnP P, ∀ c ∈ w, c ∈ l := by
  intro l
  induction l with
  | nil =>
    intro w hw c hc
    rw [List.splitOnP_nil] at hw
    rcases List.mem_singleton.mp hw with rfl
    simp at hc
  | cons x xs ih =>
    intro w hw c hc
    rw [List.splitOnP_cons] at hw
    by_cases hx : P x
    · rw [if_pos hx] at hw
      rcases List.mem_cons.mp hw with rfl | hw
      · simp at hc
      · exact List.mem_cons_of_mem x (ih w hw c hc)
    · rw [if_neg hx] at hw
      obtain ⟨hd, tl, heq⟩ := List.exists_cons_of_ne_nil (List.splitOnP_ne_nil P xs)
      rw [heq] at hw
      simp only [List.modifyHead] at hw
      rcases List.mem_cons.mp hw with rfl | hw
      · rcases List.mem_cons.mp hc with rfl | hc
        · exact List.mem_cons_self c xs
        · exact List.mem_cons_of_mem x
            (ih hd (by rw [heq]; exact List.mem_cons_self hd tl) c hc)
      · exact List.mem_cons_of_mem x
          (ih w (by rw [heq]; exact List.mem_cons_of_mem hd hw) c hc)

theorem goFields_words (l : List Char) :
    ∀ w ∈ goFields l, w ≠ [] ∧ ∀ c ∈ w, isGoSpace c = false := by
  intro w hw
  unfold goFields at hw
  have hmem := List.mem_filter.mp hw
  constructor
  · intro hnil
    rw [hnil] at hmem
    simp at hmem
  · exact splitOnP_words_free isGoSpace l w hmem.1

theorem goFields_mem (l : List Char) :
    ∀ w ∈ goFields l, ∀ c ∈ w, c ∈ l := by
  intro w hw
  unfold goFields at hw
  exact splitOnP_words_mem isGoSpace l w (List.mem_filter.mp hw).1

theorem splitOnP_map (g : Char → Char) (P : Char → Bool)
    (h : ∀ c, P (g c) = P c) :
    ∀ l : List Char, (l.map g).splitOnP P = (l.splitOnP P).map (List.map g) := by
  intro l
  induction l with
  | nil => simp [List.splitOnP_nil]
  | cons c r ih =>
    rw [List.map_cons, List.splitOnP_cons, List.splitOnP_cons, h c]
    by_cases hp : P c
    · rw [if_pos hp, if_pos hp, ih]
      rfl
    · rw [if_neg hp, if_neg hp, ih]
      obtain ⟨hd, tl, heq⟩ := List.exists_cons_of_ne_nil (List.splitOnP_ne_nil P r)
      rw [heq]
      rfl

theorem goFields_map (g : Char → Char) (hg : ∀ c, isGoSpace (g c) = isGoSpace c)
    (l : List Char) :
    goFields (l.map g) = (goFields l).map (List.map g) := by
  unfold goFields
  rw [splitOnP_map g isGoSpace hg l, List.filter_map]
  congr 1
  exact List.filter_congr (fun w _ => by cases w <;> rfl)

theorem joinSep_map (g : Char → Char) (s : Char) :
    ∀ ws : List (List Char),
      (joinSep s ws).map g = joinSep (g s) (ws.map (List.map g))
  | [] => rfl
  | [w] => rfl
  | w :: w2 :: t => by
    show (w ++ s :: joinSep s (w2 :: t)).map g = _
    rw [List.map_append, List.map_cons, joinSep_map g s (w2 :: t)]
    rfl

theorem goFields_joinSep (ws : List (List Char))
    (h : ∀ w ∈ ws, w ≠ [] ∧ ∀ c ∈ w, isGoSpace c = false) :
    goFields (joinSep ' ' ws) = ws := by
  induction ws with
  | nil => rfl
  | cons w ws ih =>
    cases ws with
    | nil =>
      show goFields w = [w]
      have hw := h w (List.mem_cons_self w [])
      have hne : (!w.isEmpty) = true := by
        cases w
        · exact absurd rfl hw.1
        · rfl
      unfold goFields
      rw [List.splitOnP_eq_single isGoSpace w
        (fun c hc => by rw [hw.2 c hc]; exact Bool.false_ne_true)]
      rw [List.filter_cons, hne, if_pos rfl]
      rfl
    | cons w2 t =>
      have hw := h w (List.mem_cons_self w (w2 :: t))
      have hne : (!w.isEmpty) = true := by
        cases w
        · exact absurd rfl hw.1
        · rfl
      have hrest : ∀ x ∈ w2 :: t, x ≠ [] ∧ ∀ c ∈ x, isGoSpace c = false :=
        fun x hx => h x (List.mem_cons_of_mem w hx)
      show goFields (w ++ ' ' :: joinSep ' ' (w2 :: t)) = w :: w2 :: t
      unfold goFields
      rw [List.splitOnP_first isGoSpace w
        (fun c hc => by rw [hw.2 c hc]; exact Bool.false_ne_true)
        ' ' (by decide) (joinSep ' ' (w2 :: t))]
      rw [List.filter_cons, hne, if_pos rfl]
      have ih2 := ih hrest
      unfold goFields at ih2
      rw [ih2]

/-! ### Claim C1: antonym placement in the concept-page sort -/

/-- C1 counterexample: the concept-page sort does not place antonym-flagged
entries after all others.  For entries with sense labels `"2."`, `""`, `"1."`
and antonym flags `false`, `false`, `true`, the antonym entry (label `"1."`)
sorts between the two non-antonym entries, because the comparator compares
the sense label before the antonym flag. -/
theorem claim1_counterexample :
    sortConceptEntries
        [⟨"b", "b", "b", "C", false, "2."⟩, ⟨"a", "a", "a", "C", false, ""⟩,
         ⟨"c", "c", "c", "C", true, "1."⟩] =
      [⟨"a", "a", "a", "C", false, ""⟩, ⟨"c", "c", "c", "C", true, "1."⟩,
       ⟨"b", "b", "b", "C", false, "2."⟩] ∧
    (⟨"c", "c", "c", "C", true, "1."⟩ : Entry).AntonimConcepte = true ∧
    (⟨"b", "b", "b", "C", false, "2."⟩ : Entry).AntonimConcepte = false := by
  refine ⟨by decide, rfl, rfl⟩

/-- C1 amended: the antonym flag decides the order only between entries whose
sense labels collate equal — there a non-antonym entry sorts strictly before
an antonym entry; on the concrete entries with labels `["2.", "", "1."]` and
antonym flags `[false, false, true]` the sort therefore yields the label
order `"" < "1." < "2."` with the antonym entry in the middle. -/
theorem claim1_amended :
    (∀ a b : Entry,
      collCompareString a.AccepcioConcepte b.AccepcioConcepte = 0 →
      a.AntonimConcepte = false → b.AntonimConcepte = true →
      conceptCmp a b = -1 ∧ conceptCmp b a = 1) ∧
    sortConceptEntries
        [⟨"b", "b", "b", "C", false, "2."⟩, ⟨"a", "a", "a", "C", false, ""⟩,
         ⟨"c", "c", "c", "C", true, "1."⟩] =
      [⟨"a", "a", "a", "C", false, ""⟩, ⟨"c", "c", "c", "C", true, "1."⟩,
       ⟨"b", "b", "b", "C", false, "2."⟩] := by
  constructor
  · intro a b hacc ha hb
    have hrev : collCompareString b.AccepcioConcepte a.AccepcioConcepte = 0 := by
      have := collCompareString_neg b.AccepcioConcepte a.AccepcioConcepte
      omega
    constructor
    · simp [conceptCmp, hacc, ha, hb]
    · simp [conceptCmp, hrev, ha, hb]
  · decide

/-- C1 witness: the amended comparator fact applied to two concrete entries
sharing the sense label `"1."`. -/
theorem claim1_witness :
    conceptCmp ⟨"a", "a", "a", "C", false, "1."⟩ ⟨"c", "c", "c", "C", true, "1."⟩ = -1 ∧
    conceptCmp ⟨"c", "c", "c", "C", true, "1."⟩ ⟨"a", "a", "a", "C", false, "1."⟩ = 1 :=
  claim1_amended.1 ⟨"a", "a", "a", "C", false, "1."⟩ ⟨"c", "c", "c", "C", true, "1."⟩
    (by decide) rfl rfl

/-! ### Claim C2: collated tiebreak on the with-parentheses field -/

/-- C2: if two entries passing the filter have the same
without-parentheses-content normalized title and neither is promoted as an
exact match over the other, the search comparator orders them by collated
comparison of the with-parentheses normalized titles. -/
theorem claim2_wp_tiebreak :
    ∀ (q mode : String) (a b : Entry),
      entryMatches q mode a = true → entryMatches q mode b = true →
      a.TitleNormalizedWpc = b.TitleNormalizedWpc →
      ((mode = "" ∨ mode = SearchModeConte) → isExact q a = isExact q b) →
      searchCmp q mode a b =
        collCompareString a.TitleNormalizedWp b.TitleNormalizedWp := by
  intro q mode a b hma hmb hwpc hex
  by_cases hm : mode = "" ∨ mode = SearchModeConte
  · rw [searchCmp_promo q mode a b hm]
    have h := hex hm
    cases hb : isExact q b
    · rw [h, hb]
      simp [alphaCmp, hwpc]
    · rw [h, hb]
      simp [alphaCmp, hwpc]
  · push_neg at hm
    rw [searchCmp_no_promo q mode a b hm.1 hm.2]
    simp [alphaCmp, hwpc]

/-- C2 witness: the tiebreak theorem applied to two concrete Contains-mode
matches sharing the field `"x y"`. -/
theorem claim2_witness :
    searchCmp ("x") SearchModeConte
        ⟨"ta", "x a", "x y", "C", false, ""⟩ ⟨"tb", "x b", "x y", "C", false, ""⟩ =
      collCompareString ("x a") ("x b") :=
  claim2_wp_tiebreak ("x") SearchModeConte
    ⟨"ta", "x a", "x y", "C", false, ""⟩ ⟨"tb", "x b", "x y", "C", false, ""⟩
    (by decide) (by decide) rfl (fun _ => by decide)

/-! ### Claim C5: scope of the exact-match promotion -/

/-- C5 counterexample: under a non-empty unrecognized mode (here `"xyz"`,
which still filters as Contains), no exact-match promotion happens: the exact
match `"z"` sorts after the collation-smaller non-exact match `"a z"`,
contradicting the claim that promotion applies to every default/unrecognized
mode. -/
theorem claim5_counterexample :
    (getEntries [⟨"y", "z", "z", "C", false, ""⟩, ⟨"x", "a z", "a z", "C", false, ""⟩]
        ("z") ("xyz") 1 10).1 =
      [⟨"x", "a z", "a z", "C", false, ""⟩, ⟨"y", "z", "z", "C", false, ""⟩] ∧
    isExact ("z") ⟨"y", "z", "z", "C", false, ""⟩ = true ∧
    isExact ("z") ⟨"x", "a z", "a z", "C", false, ""⟩ = false := by
  refine ⟨by decide, rfl, rfl⟩

/-- C5 amended: exact-match promotion happens exactly when the mode string is
empty or the literal Contains mode (`"Conté"`): under those two modes no
non-exact entry ever precedes an exact entry in the sorted results, while
under every other mode string — the three named modes and unrecognized
non-empty strings alike — the comparator degenerates to the pure
collation-based comparator. -/
theorem claim5_amended :
    (∀ (q mode : String) (l : List Entry), (mode = "" ∨ mode = SearchModeConte) →
      ∀ i j : Fin (sortResults q mode l).length, i < j →
        isExact q ((sortResults q mode l).get j) = true →
        isExact q ((sortResults q mode l).get i) = true) ∧
    (∀ (q mode : String) (a b : Entry), mode ≠ "" → mode ≠ SearchModeConte →
      searchCmp q mode a b = alphaCmp a b) := by
  constructor
  · intro q mode l hm i j hij hj
    haveI htr : IsTrans Entry (fun a b => searchCmp q mode a b ≤ 0) :=
      ⟨fun _ _ _ h1 h2 => searchCmp_trans_le h1 h2⟩
    haveI hto : IsTotal Entry (fun a b => searchCmp q mode a b ≤ 0) :=
      ⟨fun a b => by have := searchCmp_neg q mode a b; omega⟩
    have hs : List.Sorted (fun a b => searchCmp q mode a b ≤ 0) (sortResults q mode l) :=
      List.sorted_insertionSort _ _
    have hp := List.pairwise_iff_get.mp hs i j hij
    by_contra hi
    rw [Bool.not_eq_true] at hi
    rw [searchCmp_promo q mode _ _ hm, hi, hj] at hp
    simp at hp
  · intro q mode a b h1 h2
    exact searchCmp_no_promo q mode a b h1 h2

/-- C5 witness: both amended facts applied at concrete inputs — two exact
matches stay mutually unpromoted and sort by collation under the default
mode, and a named mode uses the pure collation comparator. -/
theorem claim5_witness :
    isExact ("q") ((sortResults ("q") ("")
        [⟨"a", "q", "q", "C", false, ""⟩, ⟨"b", "q b", "q", "C", false, ""⟩]).get
          ⟨0, by decide⟩) = true ∧
    searchCmp ("q") SearchModeAcabaEn
        ⟨"a", "q", "q", "C", false, ""⟩ ⟨"b", "q b", "q", "C", false, ""⟩ =
      alphaCmp ⟨"a", "q", "q", "C", false, ""⟩ ⟨"b", "q b", "q", "C", false, ""⟩ :=
  ⟨claim5_amended.1 ("q") ("")
      [⟨"a", "q", "q", "C", false, ""⟩, ⟨"b", "q b", "q", "C", false, ""⟩]
      (Or.inl rfl) ⟨0, by decide⟩ ⟨1, by decide⟩ (by decide) (by decide),
   claim5_amended.2 ("q") SearchModeAcabaEn _ _ (by decide) (by decide)⟩

/-! ### Claim C7: behaviour on the empty normalized query -/

/-- C7 counterexample: with an empty normalized query the engine does not
return zero matches in every mode — in the starts-with mode a one-entry
corpus yields total 1, not 0. -/
theorem claim7_counterexample :
    (getEntries [⟨"t", "abc", "abc", "C", false, ""⟩] ("") SearchModeComencaPer 1 10).2 = 1 ∧
    (getEntries [⟨"t", "abc", "abc", "C", false, ""⟩] ("") SearchModeComencaPer 1 10).1 =
      [⟨"t", "abc", "abc", "C", false, ""⟩] := by
  refine ⟨rfl, by decide⟩

/-- C7 amended: the engine itself does not special-case the empty query; in
the starts-with mode the empty query matches every entry, so the reported
total equals the corpus size (the handler, not the engine, avoids calling
search for an empty normalized query). -/
theorem claim7_amended :
    ∀ (corpus : List Entry) (page pageSize : Nat),
      (getEntries corpus ("") SearchModeComencaPer page pageSize).2 = corpus.length := by
  intro corpus page pageSize
  rw [getEntries_total]
  have hall : ∀ e ∈ corpus, entryMatches ("") SearchModeComencaPer e = true := by
    intro e _
    unfold entryMatches
    rw [if_pos rfl]
    simp [List.isPrefixOf]
  rw [List.filter_eq_self.mpr hall]

/-! ### Claim C8: the bracket-stripping normalizer -/

/-- C8 counterexample: the implemented normalizer additionally replaces
`" , "` by `", "`, a step absent from the claimed pipeline, so the two differ
on the input `"a , b"`. -/
theorem claim8_counterexample :
    stripBracketedContentPerSpec ("a , b") = ("a , b") ∧
    removeParenthesesContent ("a , b") = ("a, b") ∧
    ("a , b" : String) ≠ ("a, b" : String) := by
  refine ⟨by decide, by decide, by decide⟩

/-! ### Claim C9: the loader panics on an empty concept name -/

/-- C9: the post-decode phase of the corpus loader succeeds exactly when
every decoded entry has a non-empty concept name; an empty `Concepte` makes
`[]rune(entry.Concepte)[0]` panic (modelled by `none`) instead of producing a
load error — the model has no error outcome at all in this phase. -/
theorem claim9_loader_panic :
    ∀ entries : List Entry,
      (buildIndexes entries).isSome = true ↔ ∀ e ∈ entries, e.Concepte ≠ "" := by
  intro entries
  have hiff := foldlM_loadStep_isSome entries
    { phrases := [], conceptsByFirstLetter := [] }
  constructor
  · intro h
    apply hiff.mp
    unfold buildIndexes at h
    cases hf : entries.foldlM loadStep { phrases := [], conceptsByFirstLetter := [] } with
    | none => rw [hf] at h; simp at h
    | some st => rfl
  · intro h
    have := hiff.mpr h
    unfold buildIndexes
    cases hf : entries.foldlM loadStep { phrases := [], conceptsByFirstLetter := [] } with
    | none => rw [hf] at this; simp at this
    | some st => rfl

/-- C9 witness: a corpus whose single entry has the non-empty concept `"GEL"`
loads, and one with an empty concept name panics. -/
theorem claim9_witness :
    (buildIndexes [⟨"trencar el gel", "trencar el gel", "trencar el gel", "GEL", false, ""⟩]).isSome
        = true ∧
    (buildIndexes [⟨"t", "wp", "wpc", "", false, ""⟩]).isSome ≠ true :=
  ⟨(claim9_loader_panic _).mpr (by decide),
   fun h => by
    have := (claim9_loader_panic [⟨"t", "wp", "wpc", "", false, ""⟩]).mp h
    exact this ⟨"t", "wp", "wpc", "", false, ""⟩ (List.mem_singleton.mpr rfl) rfl⟩

/-! ### Claim C4: totals and pagination -/

/-- C4: for `page ≥ 1` and `pageSize ≥ 1`, search reports as total the exact
count of corpus entries passing the mode's filter; when
`(page-1)*pageSize ≥ total` (including `total = 0`) it returns the empty page
with that true total, and otherwise the slice of the ranked results from
`(page-1)*pageSize` to `min(page*pageSize, total)`, whose length never
exceeds `pageSize`. -/
theorem claim4_pagination :
    ∀ (corpus : List Entry) (q mode : String) (page pageSize : Nat),
      1 ≤ page → 1 ≤ pageSize →
      (getEntries corpus q mode page pageSize).2 = corpus.countP (entryMatches q mode) ∧
      ((page - 1) * pageSize ≥ (getEntries corpus q mode page pageSize).2 →
        (getEntries corpus q mode page pageSize).1 = []) ∧
      ((page - 1) * pageSize < (getEntries corpus q mode page pageSize).2 →
        (getEntries corpus q mode page pageSize).1 =
          ((sortResults q mode (corpus.filter (entryMatches q mode))).drop
              ((page - 1) * pageSize)).take
            (min (page * pageSize) (getEntries corpus q mode page pageSize).2 -
              (page - 1) * pageSize) ∧
        (getEntries corpus q mode page pageSize).1.length ≤ pageSize) := by
  intro corpus q mode page pageSize hpage hsize
  obtain ⟨p, rfl⟩ : ∃ p, page = p + 1 := ⟨page - 1, by omega⟩
  have hmul : (p + 1 - 1) * pageSize + pageSize = (p + 1) * pageSize := by
    simp [Nat.succ_mul]
  have hsortlen :
      (sortResults q mode (corpus.filter (entryMatches q mode))).length =
        (corpus.filter (entryMatches q mode)).length :=
    (List.perm_insertionSort _ _).length_eq
  refine ⟨by rw [getEntries_total, List.countP_eq_length_filter], ?_, ?_⟩
  · intro hge
    rw [getEntries_total] at hge
    rw [getEntries_fst]
    rw [if_pos (by omega)]
  · intro hlt
    rw [getEntries_total] at hlt
    constructor
    · rw [getEntries_fst, if_neg (by omega), getEntries_total, hmul]
    · rw [getEntries_fst, if_neg (by omega)]
      rw [List.length_take, List.length_drop, hsortlen]
      omega

/-- C4 witness: the pagination facts applied to a one-entry corpus — page 1
holds the single match and page 2 is empty with the total unchanged. -/
theorem claim4_witness :
    (getEntries [⟨"a", "q", "q", "C", false, ""⟩] ("q") ("") 2 1).1 = [] ∧
    (getEntries [⟨"a", "q", "q", "C", false, ""⟩] ("q") ("") 2 1).2 = 1 :=
  ⟨(claim4_pagination [⟨"a", "q", "q", "C", false, ""⟩] ("q") ("") 2 1
      (by decide) (by decide)).2.1 (by decide),
   by
    have := (claim4_pagination [⟨"a", "q", "q", "C", false, ""⟩] ("q") ("") 2 1
      (by decide) (by decide)).1
    rw [this]
    decide⟩

theorem containsWB_iff (q s : List Char) :
    containsWB q s = true ↔ occursWordBoundary q s := by
  constructor
  · intro h
    unfold containsWB at h
    rw [List.any_eq_true] at h
    obtain ⟨i, hi, hm⟩ := h
    rw [List.mem_range] at hi
    unfold matchAtPos at hm
    rw [Bool.and_eq_true, Bool.and_eq_true] at hm
    obtain ⟨⟨h1, h2⟩, h3⟩ := hm
    have h1e : (s.drop i).take q.length = q := eq_of_beq h1
    have hlen : i + q.length ≤ s.length := by
      have := congrArg List.length h1e
      rw [List.length_take, List.length_drop] at this
      omega
    refine ⟨s.take i, s.drop (i + q.length), ?_, ?_, ?_⟩
    · conv_lhs => rw [← List.take_append_drop i s]
      rw [List.append_assoc]
      congr 1
      conv_lhs => rw [← List.take_append_drop q.length (s.drop i)]
      rw [h1e, List.drop_drop]
    · by_cases hi0 : i = 0
      · left
        rw [hi0]
        rfl
      · right
        have h2b : isWordChar (s.getD (i - 1) ' ') = false := by
          rcases Bool.or_eq_true _ _ |>.mp h2 with h2 | h2
          · exact absurd (by simpa using h2) hi0
          · simpa using h2
        refine ⟨s.getD (i - 1) ' ', ?_, h2b⟩
        have hmin : min i s.length = i := Nat.min_eq_left (by omega)
        rw [List.getLast?_eq_getElem?, List.length_take, hmin, List.getElem?_take,
          if_pos (by omega), List.getD_eq_getElem?_getD,
          List.getElem?_eq_getElem (show i - 1 < s.length by omega)]
        rfl
    · by_cases hend : i + q.length = s.length
      · left
        rw [hend, List.drop_length]
      · right
        have h3b : isWordChar (s.getD (i + q.length) ' ') = false := by
          rcases Bool.or_eq_true _ _ |>.mp h3 with h3 | h3
          · exact absurd (by simpa using h3) hend
          · simpa using h3
        refine ⟨s.getD (i + q.length) ' ', ?_, h3b⟩
        rw [List.head?_drop, List.getD_eq_getElem?_getD,
          List.getElem?_eq_getElem (show i + q.length < s.length by omega)]
        rfl
  · rintro ⟨pre, post, hs, hl, hr⟩
    unfold containsWB
    rw [List.any_eq_true]
    refine ⟨pre.length, ?_, ?_⟩
    · rw [List.mem_range, hs]
      simp only [List.length_append]
      omega
    · unfold matchAtPos
      rw [Bool.and_eq_true, Bool.and_eq_true]
      refine ⟨⟨?_, ?_⟩, ?_⟩
      · rw [hs, List.append_assoc, List.drop_left, List.take_left]
        exact beq_self_eq_true q
      · rcases hl with rfl | ⟨c, hc, hcw⟩
        · simp
        · rw [Bool.or_eq_true]
          right
          have hpre : pre ≠ [] := by
            intro h0
            rw [h0] at hc
            simp at hc
          have hplen : 0 < pre.length := List.length_pos.mpr hpre
          have hgd : s.getD (pre.length - 1) ' ' = c := by
            rw [hs, List.append_assoc, List.getD_eq_getElem?_getD, List.getElem?_append,
              if_pos (by omega)]
            rw [List.getLast?_eq_getElem?] at hc
            rw [hc]
            rfl
          rw [hgd, hcw]
          rfl
      · rcases hr with rfl | ⟨c, hc, hcw⟩
        · rw [Bool.or_eq_true]
          left
          rw [hs]
          simp [List.length_append]
        · rw [Bool.or_eq_true]
          right
          have hgd : s.getD (pre.length + q.length) ' ' = c := by
            rw [hs, List.getD_eq_getElem?_getD,
              List.getElem?_append_right (by simp [List.length_append]),
              show pre.length + q.length - (pre ++ q).length = 0 by
                simp [List.length_append]]
            rw [List.head?_eq_getElem?] at hc
            rw [hc]
            rfl
          rw [hgd, hcw]
          rfl

/-! ### Claim C3: Contains-mode word-boundary matching -/

/-- C3: for a non-empty normalized query, the default/Contains filter accepts
an entry exactly when the query occurs with whole-word boundaries in
`TitleNormalizedWpc`, or — only when the two normalized fields differ — in
`TitleNormalizedWp`; in particular `"pop"` does not match an entry whose
fields contain `"pop"` only inside `"popular"`, and does match a standalone
occurrence. -/
theorem claim3_contains_word_boundary :
    (∀ (q mode : String) (e : Entry),
      q.data ≠ [] →
      mode ≠ SearchModeComencaPer → mode ≠ SearchModeAcabaEn →
      mode ≠ SearchModeCoincident →
      (entryMatches q mode e = true ↔
        (occursWordBoundary q.data e.TitleNormalizedWpc.data ∨
          (e.TitleNormalizedWpc ≠ e.TitleNormalizedWp ∧
            occursWordBoundary q.data e.TitleNormalizedWp.data)))) ∧
    entryMatches ("pop") ("")
      ⟨"La música popular", "la musica popular", "la musica popular", "C", false, ""⟩ = false ∧
    entryMatches ("pop") ("") ⟨"El pop", "el pop", "el pop", "C", false, ""⟩ = true := by
  refine ⟨?_, by decide, by decide⟩
  intro q mode e _ h1 h2 h3
  unfold entryMatches
  rw [if_neg h1, if_neg h2, if_neg h3]
  rw [Bool.or_eq_true, Bool.and_eq_true]
  rw [containsWB_iff, containsWB_iff]
  rw [bne_iff_ne]

/-- C3 witness: the boundary characterization applied to the query `"pop"`
and the entry with both fields `"el pop"`: the filter decides true, so the
spec-worded occurrence property holds. -/
theorem claim3_witness :
    occursWordBoundary ("pop" : String).data ("el pop" : String).data ∨
      (("el pop" : String) ≠ ("el pop" : String) ∧
        occursWordBoundary ("pop" : String).data ("el pop" : String).data) :=
  (claim3_contains_word_boundary.1 ("pop") ("")
      ⟨"El pop", "el pop", "el pop", "C", false, ""⟩
      (by decide) (by decide) (by decide) (by decide)).mp (by decide)

theorem hasTripleDot_cons {c : Char} {r : List Char}
    (h : hasTripleDot (c :: r) = false) : hasTripleDot r = false := by
  match r with
  | [] => rfl
  | [x] => rfl
  | x :: y :: t =>
    unfold hasTripleDot at h
    rw [Bool.or_eq_false_iff] at h
    exact h.2

theorem goReplaceF_mem :
    ∀ (n : Nat) (l : List Char) (c : Char), c ∈ goReplaceF n l →
      c ≠ typoAposChar ∧ c ≠ '(' ∧ c ≠ ')' := by
  intro n
  induction n with
  | zero => intro l c hc; simp [goReplaceF] at hc
  | succ n ih =>
    intro l c hc
    cases l with
    | nil => simp [goReplaceF] at hc
    | cons d r =>
      unfold goReplaceF at hc
      by_cases h1 : d = typoAposChar
      · rw [if_pos h1] at hc
        rcases List.mem_cons.mp hc with rfl | hc
        · exact ⟨by decide, by decide, by decide⟩
        · exact ih r c hc
      · rw [if_neg h1] at hc
        by_cases h2 : d = '('
        · rw [if_pos h2] at hc
          exact ih r c hc
        · rw [if_neg h2] at hc
          by_cases h3 : d = ')'
          · rw [if_pos h3] at hc
            exact ih r c hc
          · rw [if_neg h3] at hc
            by_cases h4 : d = '.' ∧ r.take 2 = ['.', '.']
            · rw [if_pos h4] at hc
              rcases List.mem_cons.mp hc with rfl | hc
              · exact ⟨by decide, by decide, by decide⟩
              · exact ih (r.drop 2) c hc
            · rw [if_neg h4] at hc
              rcases List.mem_cons.mp hc with rfl | hc
              · exact ⟨h1, h2, h3⟩
              · exact ih r c hc

theorem goReplace_mem (l : List Char) (c : Char) (hc : c ∈ goReplace l) :
    c ≠ typoAposChar ∧ c ≠ '(' ∧ c ≠ ')' :=
  goReplaceF_mem l.length l c hc

theorem goReplaceF_id :
    ∀ (n : Nat) (l : List Char), l.length ≤ n →
      (∀ c ∈ l, c ≠ typoAposChar ∧ c ≠ '(' ∧ c ≠ ')') →
      hasTripleDot l = false → goReplaceF n l = l := by
  intro n
  induction n with
  | zero =>
    intro l hl _ _
    rw [Nat.le_zero] at hl
    rw [List.length_eq_zero] at hl
    rw [hl]
    rfl
  | succ n ih =>
    intro l hl hfree htd
    cases l with
    | nil => rfl
    | cons d r =>
      have hd := hfree d (List.mem_cons_self d r)
      unfold goReplaceF
      rw [if_neg hd.1, if_neg hd.2.1, if_neg hd.2.2]
      have h4 : ¬(d = '.' ∧ r.take 2 = ['.', '.']) := by
        rintro ⟨rfl, htake⟩
        match r, htake with
        | x :: y :: t, htake =>
          have hx : x = '.' := by
            have := congrArg (fun l => l.getD 0 ' ') htake
            simpa using this
          have hy : y = '.' := by
            have := congrArg (fun l => l.getD 1 ' ') htake
            simpa using this
          subst hx
          subst hy
          unfold hasTripleDot at htd
          simp at htd
      rw [if_neg h4]
      rw [ih r (by simpa using Nat.le_of_succ_le_succ (by simpa using hl))
        (fun c hc => hfree c (List.mem_cons_of_mem d hc)) (hasTripleDot_cons htd)]

theorem goReplace_id (l : List Char)
    (hfree : ∀ c ∈ l, c ≠ typoAposChar ∧ c ≠ '(' ∧ c ≠ ')')
    (htd : hasTripleDot l = false) : goReplace l = l :=
  goReplaceF_id l.length l (Nat.le_refl _) hfree htd

theorem lowerNoAcc_pres (P : Char → Bool)
    (h1 : ∀ p ∈ lowerTable, P p.1 = false ∧ P p.2 = false)
    (h2 : ∀ p ∈ accentTable, P p.1 = false ∧ P p.2 = false) (c : Char) :
    P (lowerNoAcc c) = P c := by
  unfold lowerNoAcc goToLower
  rw [applyTable_pres accentTable P h2, applyTable_pres lowerTable P h1]

theorem lowerNoAcc_idem (c : Char) : lowerNoAcc (lowerNoAcc c) = lowerNoAcc c := by
  unfold lowerNoAcc goToLower
  cases hfl : lowerTable.find? (fun q => q.1 = c) with
  | some p =>
    have hm := List.mem_of_find?_eq_some hfl
    have hv : applyTable lowerTable c = p.2 := by
      unfold applyTable
      rw [hfl]
      rfl
    rw [hv]
    have hfix : applyTable lowerTable (applyTable accentTable p.2) =
        applyTable accentTable p.2 ∧
        applyTable accentTable (applyTable accentTable p.2) =
          applyTable accentTable p.2 := by
      have : ∀ q ∈ lowerTable,
          applyTable lowerTable (applyTable accentTable q.2) =
            applyTable accentTable q.2 ∧
          applyTable accentTable (applyTable accentTable q.2) =
            applyTable accentTable q.2 := by decide
      exact this p hm
    rw [hfix.1, hfix.2]
  | none =>
    have hv : applyTable lowerTable c = c := by
      unfold applyTable
      rw [hfl]
      rfl
    rw [hv]
    cases hfa : accentTable.find? (fun q => q.1 = c) with
    | some p =>
      have hm := List.mem_of_find?_eq_some hfa
      have hv2 : applyTable accentTable c = p.2 := by
        unfold applyTable
        rw [hfa]
        rfl
      rw [hv2]
      have hfix : applyTable lowerTable p.2 = p.2 ∧ applyTable accentTable p.2 = p.2 := by
        have : ∀ q ∈ accentTable,
            applyTable lowerTable q.2 = q.2 ∧ applyTable accentTable q.2 = q.2 := by decide
        exact this p hm
      rw [hfix.1, hfix.2]
    | none =>
      have hv2 : applyTable accentTable c = c := by
        unfold applyTable
        rw [hfa]
        rfl
      rw [hv2, hv, hv2]

theorem joinSep_cons (s : Char) (w : List Char) (ws : List (List Char)) :
    joinSep s (w :: ws) = w ++ (if ws.isEmpty then [] else s :: joinSep s ws) := by
  cases ws with
  | nil => simp [joinSep]
  | cons w2 t => rfl

theorem joinSep_mem (s : Char) :
    ∀ (ws : List (List Char)) (c : Char), c ∈ joinSep s ws →
      c = s ∨ ∃ w ∈ ws, c ∈ w := by
  intro ws
  induction ws with
  | nil => intro c hc; simp [joinSep] at hc
  | cons w t ih =>
    intro c hc
    rw [joinSep_cons] at hc
    rcases List.mem_append.mp hc with hc | hc
    · exact Or.inr ⟨w, List.mem_cons_self w t, hc⟩
    · cases t with
      | nil => simp at hc
      | cons w2 t2 =>
        simp only [List.isEmpty_cons, if_neg] at hc
        rcases List.mem_cons.mp (by simpa using hc) with rfl | hc
        · exact Or.inl rfl
        · rcases ih c hc with h | ⟨w3, hw3, hcw⟩
          · exact Or.inl h
          · exact Or.inr ⟨w3, List.mem_cons_of_mem w hw3, hcw⟩

theorem dropWhile_head_false {p : Char → Bool} :
    ∀ {l c t}, List.dropWhile p l = c :: t → p c = false := by
  intro l
  induction l with
  | nil => intro c t h; simp at h
  | cons x xs ih =>
    intro c t h
    rw [List.dropWhile_cons] at h
    by_cases hx : p x
    · rw [if_pos hx] at h
      exact ih h
    · rw [if_neg hx] at h
      injection h with h1 _
      rw [h1] at hx
      exact Bool.eq_false_iff.mpr hx

theorem dropWhile_eq_self_of {p : Char → Bool} (l : List Char)
    (h : ∀ c t, l = c :: t → p c = false) : List.dropWhile p l = l := by
  cases l with
  | nil => rfl
  | cons c t =>
    rw [List.dropWhile_cons, if_neg (by rw [h c t rfl]; exact Bool.false_ne_true)]

theorem getLast?_dropWhile {p : Char → Bool} (l : List Char)
    (h : List.dropWhile p l ≠ []) :
    (List.dropWhile p l).getLast? = l.getLast? := by
  obtain ⟨u, hu⟩ := List.dropWhile_suffix p (l := l)
  conv_rhs => rw [← hu]
  rw [List.getLast?_append]
  cases hg : (List.dropWhile p l).getLast? with
  | none => exact absurd (List.getLast?_eq_none_iff.mp hg) h
  | some c => rfl

theorem joinSep_append_single (s : Char) (w : List Char) :
    ∀ ws : List (List Char),
      joinSep s (ws ++ [w]) =
        (if ws.isEmpty then [] else joinSep s ws ++ [s]) ++ w := by
  intro ws
  induction ws with
  | nil => simp [joinSep]
  | cons v t ih =>
    have hne : ((t ++ [w]).isEmpty) = false := by
      cases t <;> rfl
    rw [List.cons_append, joinSep_cons, hne]
    simp only [List.isEmpty_cons, Bool.false_eq_true, if_false]
    cases t with
    | nil => simp [joinSep, List.append_assoc]
    | cons v2 t2 =>
      rw [ih, joinSep_cons s v (v2 :: t2)]
      simp [List.append_assoc]

theorem joinSep_reverse (s : Char) :
    ∀ ws : List (List Char),
      (joinSep s ws).reverse = joinSep s ((ws.reverse).map List.reverse) := by
  intro ws
  induction ws with
  | nil => rfl
  | cons w t ih =>
    cases t with
    | nil => simp [joinSep]
    | cons w2 t2 =>
      show (w ++ s :: joinSep s (w2 :: t2)).reverse = _
      rw [List.reverse_append, List.reverse_cons, ih]
      rw [show ((w :: w2 :: t2).reverse).map List.reverse =
        ((w2 :: t2).reverse).map List.reverse ++ [w.reverse] by simp]
      rw [joinSep_append_single]
      rw [if_neg (by simp)]

theorem cleanWords_revmap {ws : List (List Char)} (h : cleanWords ws) :
    cleanWords ((ws.reverse).map List.reverse) := by
  intro x hx
  rw [List.mem_map] at hx
  obtain ⟨a, ha, rfl⟩ := hx
  rw [List.mem_reverse] at ha
  have hha := h a ha
  constructor
  · rw [Ne, List.reverse_eq_nil_iff]
    exact hha.1
  · intro c hc
    exact hha.2 c (List.mem_reverse.mp hc)

theorem dropCut_joinSep :
    ∀ ws : List (List Char), cleanWords ws →
      ∃ ws2, cleanWords ws2 ∧
        List.dropWhile inCut (joinSep ' ' ws) = joinSep ' ' ws2 := by
  intro ws
  induction ws with
  | nil =>
    exact fun _ => ⟨[], fun w hw => absurd hw (List.not_mem_nil w), by
      show List.dropWhile inCut [] = []
      exact List.dropWhile_nil⟩
  | cons w t ih =>
    intro hclean
    have hw := hclean w (List.mem_cons_self w t)
    have htc : cleanWords t := fun x hx => hclean x (List.mem_cons_of_mem w hx)
    rw [joinSep_cons, List.dropWhile_append]
    by_cases hdw : (List.dropWhile inCut w).isEmpty = true
    · rw [if_pos hdw]
      cases t with
      | nil =>
        refine ⟨[], fun x hx => absurd hx (List.not_mem_nil x), ?_⟩
        show List.dropWhile inCut (if (List.isEmpty []) = true then [] else _) = joinSep ' ' []
        exact List.dropWhile_nil
      | cons w2 t2 =>
        simp only [List.isEmpty_cons, Bool.false_eq_true, if_false]
        rw [List.dropWhile_cons, if_pos (by decide)]
        exact ih htc
    · rw [if_neg hdw]
      refine ⟨List.dropWhile inCut w :: t, ?_, ?_⟩
      · intro x hx
        rcases List.mem_cons.mp hx with rfl | hx
        · refine ⟨?_, ?_⟩
          · intro h0
            rw [h0] at hdw
            exact hdw rfl
          · intro c hc
            exact hw.2 c (List.Sublist.mem hc (List.dropWhile_sublist inCut))
        · exact htc x hx
      · rw [joinSep_cons]

theorem trimCut_joinSep (ws : List (List Char)) (h : cleanWords ws) :
    ∃ ws2, cleanWords ws2 ∧ trimCut (joinSep ' ' ws) = joinSep ' ' ws2 := by
  obtain ⟨w1, hc1, he1⟩ := dropCut_joinSep ws h
  obtain ⟨w2, hc2, he2⟩ := dropCut_joinSep _ (cleanWords_revmap hc1)
  refine ⟨(w2.reverse).map List.reverse, cleanWords_revmap hc2, ?_⟩
  unfold trimCut
  rw [he1, joinSep_reverse, he2, joinSep_reverse]

theorem trimCut_head (l : List Char) :
    ∀ c, (trimCut l).head? = some c → inCut c = false := by
  intro c hc
  unfold trimCut at hc
  rw [List.head?_reverse] at hc
  have hne : List.dropWhile inCut ((List.dropWhile inCut l).reverse) ≠ [] := by
    intro h0
    rw [h0] at hc
    simp at hc
  rw [getLast?_dropWhile _ hne, List.getLast?_reverse] at hc
  cases hd : List.dropWhile inCut l with
  | nil => rw [hd] at hc; simp at hc
  | cons d t =>
    rw [hd] at hc
    have hcd : d = c := by simpa using hc
    rw [← hcd]
    exact dropWhile_head_false hd

theorem trimCut_last (l : List Char) :
    ∀ c, (trimCut l).getLast? = some c → inCut c = false := by
  intro c hc
  unfold trimCut at hc
  rw [List.getLast?_reverse] at hc
  cases hd : List.dropWhile inCut ((List.dropWhile inCut l).reverse) with
  | nil => rw [hd] at hc; simp at hc
  | cons d t =>
    rw [hd] at hc
    have hcd : d = c := by simpa using hc
    rw [← hcd]
    exact dropWhile_head_false hd

theorem trimCut_eq_self (l : List Char)
    (hh : ∀ c, l.head? = some c → inCut c = false)
    (hl : ∀ c, l.getLast? = some c → inCut c = false) : trimCut l = l := by
  unfold trimCut
  rw [dropWhile_eq_self_of l (fun c t hct => hh c (by rw [hct]; rfl))]
  rw [dropWhile_eq_self_of l.reverse
    (fun c t hct => hl c (by rw [← List.head?_reverse, hct]; rfl))]
  exact List.reverse_reverse l

theorem trimCut_mem (l : List Char) (c : Char) (hc : c ∈ trimCut l) : c ∈ l := by
  unfold trimCut at hc
  rw [List.mem_reverse] at hc
  have hc2 : c ∈ (List.dropWhile inCut l).reverse :=
    List.Sublist.mem hc (List.dropWhile_sublist inCut)
  rw [List.mem_reverse] at hc2
  exact List.Sublist.mem hc2 (List.dropWhile_sublist inCut)

theorem normalize_snd_pass (y : List Char)
    (hfree : ∀ c ∈ y, c ≠ typoAposChar ∧ c ≠ '(' ∧ c ≠ ')')
    (htd : hasTripleDot y = false)
    (hjoin : joinSep ' ' (goFields y) = y)
    (hh : ∀ c, y.head? = some c → inCut c = false)
    (hl : ∀ c, y.getLast? = some c → inCut c = false)
    (hlow : y.map lowerNoAcc = y) :
    normalizeListForSearch y = y := by
  unfold normalizeListForSearch
  rw [goReplace_id y hfree htd, hjoin, trimCut_eq_self y hh hl, hlow]

theorem joinSep_head_nonspace {ws : List (List Char)} (h : cleanWords ws) :
    ∀ c, (joinSep ' ' ws).head? = some c → isGoSpace c = false := by
  intro c hc
  cases ws with
  | nil => simp [joinSep] at hc
  | cons w t =>
    have hw := h w (List.mem_cons_self w t)
    rw [joinSep_cons, List.head?_append] at hc
    cases hwh : w.head? with
    | none =>
      rw [List.head?_eq_getElem?] at hwh
      cases w with
      | nil => exact absurd rfl hw.1
      | cons a r => simp at hwh
    | some d =>
      rw [hwh] at hc
      have hcd : d = c := by simpa using hc
      rw [← hcd]
      exact hw.2 d (List.mem_of_mem_head? (by rw [hwh]; rfl))

theorem joinSep_getLast_nonspace {ws : List (List Char)} (h : cleanWords ws) :
    ∀ c, (joinSep ' ' ws).getLast? = some c → isGoSpace c = false := by
  intro c hc
  rw [← List.head?_reverse, joinSep_reverse] at hc
  exact joinSep_head_nonspace (cleanWords_revmap h) c hc

theorem trimWS_eq_self (l : List Char)
    (hh : ∀ c, l.head? = some c → isGoSpace c = false)
    (hl : ∀ c, l.getLast? = some c → isGoSpace c = false) : trimWS l = l := by
  unfold trimWS
  rw [dropWhile_eq_self_of l (fun c t hct => hh c (by rw [hct]; rfl))]
  rw [dropWhile_eq_self_of l.reverse
    (fun c t hct => hl c (by rw [← List.head?_reverse, hct]; rfl))]
  exact List.reverse_reverse l

theorem trimWS_joinSep (ws : List (List Char)) (h : cleanWords ws) :
    trimWS (joinSep ' ' ws) = joinSep ' ' ws :=
  trimWS_eq_self _ (joinSep_head_nonspace h) (joinSep_getLast_nonspace h)

/-- C8 amended: the bracket-stripping normalizer repeatedly removes innermost
parenthesized and bracketed spans, collapses whitespace runs to single
spaces, replaces `" , "` by `", "`, and trims — that is, on every input the
implemented function coincides with the claimed pipeline followed by the
`" , "`-to-`", "` replacement; on `"a (b (c)) d [e]"` it returns `"a d"`
(nested parentheses fully removed), and on `"a (x) , b"` it returns
`"a, b"`. -/
theorem claim8_amended :
    (∀ s : String, removeParenthesesContent s =
      String.mk (trimWS (commaFix ((stripBracketedContentPerSpec s).data)))) ∧
    removeParenthesesContent ("a (b (c)) d [e]") = ("a d") ∧
    removeParenthesesContent ("a (x) , b") = ("a, b") := by
  refine ⟨?_, by decide, by decide⟩
  intro s
  unfold removeParenthesesContent stripBracketedContentPerSpec
  have hws := goFields_words
    (removeLoop (bracketPass '[' ']')
      (removeLoop (bracketPass '(' ')') s.data.length s.data).length
      (removeLoop (bracketPass '(' ')') s.data.length s.data))
  rw [show (String.mk (trimWS (joinSep ' '
      (goFields (removeLoop (bracketPass '[' ']')
        (removeLoop (bracketPass '(' ')') s.data.length s.data).length
        (removeLoop (bracketPass '(' ')') s.data.length s.data)))))).data =
      trimWS (joinSep ' '
        (goFields (removeLoop (bracketPass '[' ']')
          (removeLoop (bracketPass '(' ')') s.data.length s.data).length
          (removeLoop (bracketPass '(' ')') s.data.length s.data)))) from rfl]
  rw [trimWS_joinSep _ hws]

/-! ### Claim C6: normalization idempotence -/

/-- C6 counterexample: `normalizeForSearch` is not idempotent.  On `"..(.)"`
the parenthesis deletion creates a fresh `"..."` that the single replacer
pass never revisits, so the output is `"..."`; a second normalization
collapses it to the ellipsis character. -/
theorem claim6_counterexample :
    normalizeForSearch (normalizeForSearch ("..(.)")) ≠ normalizeForSearch ("..(.)") ∧
    normalizeForSearch ("..(.)") = ("...") ∧
    normalizeForSearch (normalizeForSearch ("..(.)")) = ("…") := by
  refine ⟨by decide, by decide, by decide⟩

/-- List-level core of the amended C6 statement: a second normalization pass
is the identity when the first pass's output has no three consecutive
dots. -/
theorem normalizeList_idem (x : List Char)
    (htd : hasTripleDot (normalizeListForSearch x) = false) :
    normalizeListForSearch (normalizeListForSearch x) = normalizeListForSearch x := by
  set y := normalizeListForSearch x with hy
  have hyshape : y = (trimCut (joinSep ' ' (goFields (goReplace x)))).map lowerNoAcc := by
    rw [hy]
    rfl
  apply normalize_snd_pass
  · intro c hcy
    rw [hyshape, List.mem_map] at hcy
    obtain ⟨c0, hc0, rfl⟩ := hcy
    have hc0q : c0 ∈ joinSep ' ' (goFields (goReplace x)) := trimCut_mem _ c0 hc0
    have hc0l : c0 = ' ' ∨ c0 ∈ goReplace x := by
      rcases joinSep_mem ' ' (goFields (goReplace x)) c0 hc0q with h | ⟨w, hw, hcw⟩
      · exact Or.inl h
      · exact Or.inr (goFields_mem _ w hw c0 hcw)
    have hfree0 : c0 ≠ typoAposChar ∧ c0 ≠ '(' ∧ c0 ≠ ')' := by
      rcases hc0l with rfl | hmem
      · exact ⟨by decide, by decide, by decide⟩
      · exact goReplace_mem x c0 hmem
    refine ⟨?_, ?_, ?_⟩
    · intro heq
      have hp := lowerNoAcc_pres (fun ch => decide (ch = typoAposChar))
        (by decide) (by decide) c0
      rw [heq] at hp
      simp at hp
      exact hfree0.1 hp
    · intro heq
      have hp := lowerNoAcc_pres (fun ch => decide (ch = '(')) (by decide) (by decide) c0
      rw [heq] at hp
      simp at hp
      exact hfree0.2.1 hp
    · intro heq
      have hp := lowerNoAcc_pres (fun ch => decide (ch = ')')) (by decide) (by decide) c0
      rw [heq] at hp
      simp at hp
      exact hfree0.2.2 hp
  · exact htd
  · obtain ⟨W, hWc, hWe⟩ := trimCut_joinSep (goFields (goReplace x))
      (goFields_words (goReplace x))
    have hyW : y = (joinSep ' ' W).map lowerNoAcc := by
      rw [hyshape, hWe]
    rw [hyW]
    rw [goFields_map lowerNoAcc (lowerNoAcc_pres isGoSpace (by decide) (by decide))]
    rw [goFields_joinSep W hWc]
    rw [joinSep_map lowerNoAcc ' ' W]
    rw [show lowerNoAcc ' ' = ' ' from by decide]
  · intro c hc
    rw [hyshape, List.head?_map] at hc
    cases hq : (trimCut (joinSep ' ' (goFields (goReplace x)))).head? with
    | none => rw [hq] at hc; simp at hc
    | some d =>
      rw [hq] at hc
      have hcd : c = lowerNoAcc d := by
        have := Option.some.inj hc
        rw [← this]
      rw [hcd, lowerNoAcc_pres inCut (by decide) (by decide) d]
      exact trimCut_head _ d hq
  · intro c hc
    rw [hyshape, List.getLast?_map] at hc
    cases hq : (trimCut (joinSep ' ' (goFields (goReplace x)))).getLast? with
    | none => rw [hq] at hc; simp at hc
    | some d =>
      rw [hq] at hc
      have hcd : c = lowerNoAcc d := by
        have := Option.some.inj hc
        rw [← this]
      rw [hcd, lowerNoAcc_pres inCut (by decide) (by decide) d]
      exact trimCut_last _ d hq
  · rw [hyshape, List.map_map]
    exact List.map_congr_left (fun c _ => lowerNoAcc_idem c)

/-- C6 amended: `normalizeForSearch` is deterministic, pure and total (it is
a Lean function by construction), and re-normalizing is a no-op whenever the
first normalization's output contains no three consecutive dots; full
idempotence fails because deleting parenthesis characters can create a new
`"..."` that only a second pass would collapse. -/
theorem claim6_normalize_idempotent :
    ∀ x : String, hasTripleDot (normalizeForSearch x).data = false →
      normalizeForSearch (normalizeForSearch x) = normalizeForSearch x := by
  intro x htd
  exact congrArg String.mk (normalizeList_idem x.data htd)

/-- C6 witness: the conditional idempotence applied to the concrete input
`"CAFÉ (bo)..."`, whose normalization `"cafe bo…"` has no triple dot. -/
theorem claim6_witness :
    hasTripleDot (normalizeForSearch ("CAFÉ (bo)...")).data = false ∧
    normalizeForSearch (normalizeForSearch ("CAFÉ (bo)...")) =
      normalizeForSearch ("CAFÉ (bo)...") :=
  ⟨by decide, claim6_normalize_idempotent ("CAFÉ (bo)...") (by decide)⟩

/-! ### Claim C10: slug round trip -/

/-- C10: for an entry whose concept name has no underscore and is
single-space separated with no edge whitespace (captured by the fields/join
round trip on the name), looking up entries by the slug computed from that
concept name returns a list containing the entry; the lookup compares the
names case-insensitively. -/
theorem claim10_slug_roundtrip :
    ∀ (corpus : List Entry) (e : Entry), e ∈ corpus →
      ('_' ∉ e.Concepte.data) →
      joinSep ' ' (goFields e.Concepte.data) = e.Concepte.data →
      e ∈ getEntriesByConceptSlug corpus (getConceptSlug e.Concepte) := by
  intro corpus e hmem hund hclean
  unfold getEntriesByConceptSlug
  apply List.mem_filter.mpr
  refine ⟨hmem, ?_⟩
  have hspace : ∀ ch, isGoSpace (goToLower ch) = isGoSpace ch :=
    goToLower_pres isGoSpace (by decide)
  have hfields : goFields (e.Concepte.data.map goToLower) =
      (goFields e.Concepte.data).map (List.map goToLower) :=
    goFields_map goToLower hspace e.Concepte.data
  have hmatch : ((getConceptSlug e.Concepte).data.map underscoreToSpace) =
      e.Concepte.data.map goToLower := by
    show (joinSep '_' (goFields (e.Concepte.data.map goToLower))).map underscoreToSpace = _
    rw [hfields, joinSep_map underscoreToSpace '_']
    rw [show underscoreToSpace '_' = ' ' from rfl]
    rw [List.map_map]
    have hwords : (goFields e.Concepte.data).map
          (List.map underscoreToSpace ∘ List.map goToLower) =
        (goFields e.Concepte.data).map (List.map goToLower) := by
      apply List.map_congr_left
      intro w hw
      show (w.map goToLower).map underscoreToSpace = w.map goToLower
      rw [List.map_map]
      apply List.map_congr_left
      intro ch hch
      show underscoreToSpace (goToLower ch) = goToLower ch
      have hch2 : ch ∈ e.Concepte.data := goFields_mem e.Concepte.data w hw ch hch
      have hne : ch ≠ '_' := fun h => hund (h ▸ hch2)
      have hpres := goToLower_pres (fun x => decide (x = '_')) (by decide) ch
      simp only [decide_eq_true_eq] at hpres
      unfold underscoreToSpace
      rw [if_neg (by
        intro hlu
        rw [hlu] at hpres
        exact hne (by
          rcases Decidable.em (ch = '_') with h | h
          · exact h
          · exfalso
            have : (decide ('_' = '_')) = (decide (ch = '_')) := hpres
            simp [h] at this))]
    rw [hwords]
    have hj := joinSep_map goToLower ' ' (goFields e.Concepte.data)
    rw [show goToLower ' ' = ' ' from rfl] at hj
    rw [← hj, hclean]
  rw [hmatch]
  unfold eqFold
  have : (e.Concepte.data.map goToLower).map goToLower = e.Concepte.data.map goToLower := by
    rw [List.map_map]
    apply List.map_congr_left
    intro ch _
    exact goToLower_idem ch
  show (e.Concepte.data.map goToLower ==
    (String.mk (e.Concepte.data.map goToLower)).data.map goToLower) = true
  rw [show (String.mk (e.Concepte.data.map goToLower)).data = e.Concepte.data.map goToLower
    from rfl]
  rw [this]
  exact beq_self_eq_true _

/-- C10 witness: the round trip applied to a concrete entry with concept
`"Camp de Tarragona"`. -/
theorem claim10_witness :
    (⟨"t", "wp", "wpc", "Camp de Tarragona", false, ""⟩ : Entry) ∈
      getEntriesByConceptSlug [⟨"t", "wp", "wpc", "Camp de Tarragona", false, ""⟩]
        (getConceptSlug ("Camp de Tarragona")) :=
  claim10_slug_roundtrip [⟨"t", "wp", "wpc", "Camp de Tarragona", false, ""⟩]
    ⟨"t", "wp", "wpc", "Camp de Tarragona", false, ""⟩
    (List.mem_singleton.mpr rfl) (by decide) (by decide)

end DSFF
